import Mathlib

/-!
# FileDownloader: the control center (src/ControlCenter.cpp)

A shallow embedding of `ControlCenter::Init`, `GetFileSize`, `GetWorkerCount`,
`NewDownloader`, `CreateWorkers`, `WaitStop` and `StartWork`, followed by the
properties of the range partition and of the start-up / shut-down control flow.

Modelling conventions.

* `std::string` is a list of characters.
* `mFileSize` and `ChunkSize` are declared in `ControlCenter.hpp`, which is not
  part of the sources, so their widths are not fixed here: they are natural
  numbers, and so are the `size_t` sizes.  `ChunkSize` and the number of
  processors are parameters of the environment.
* Offsets (`off_t`) are integers.
* `chunkCount` is declared `uint32_t` and is assigned a `size_t` quotient: the
  model reduces it modulo 2^32 (`u32`).  The properties of the partition carry
  the hypothesis `NoWrap`, under which the reduction changes nothing.  The
  `uint32_t count` of `GetWorkerCount` cannot wrap for a processor count that
  fits an `int` (section "Machine integers").
* Everything the control center obtains from its collaborators (libcurl, the
  file system, `Downloader::Init`, `Worker::Start`) is an input of the model,
  collected in `ProbeEnv`, `InitEnv` and `Env`.
* Threads and the file descriptor are external effects; the model records them
  in the order in which they happen in the field `log`.
-/

namespace FileDownloader

/-- A `std::string`. -/
abbrev Str := List Char

/-- The literal "HTTP". -/
def HTTP : Str := ['H', 'T', 'T', 'P']

/-- The literal "Accept-Ranges: bytes". -/
def acceptRanges : Str := "Accept-Ranges: bytes".toList

/-- The record `FileInfo` handed to a job with `SetFileInfo`. -/
structure FileInfo where
  fd : Int
  mErr : Int
  offset : Int
  size : Nat
deriving DecidableEq, Repr

/-- A `Job`: the downloader it was created with (its position in
`mDownLoaders`) and its `FileInfo`. -/
structure Job where
  dl : Nat
  info : FileInfo
deriving DecidableEq, Repr

/-- A `Downloader` created by `NewDownloader`: an `HttpDownloader` on a URL. -/
structure Downloader where
  url : Str
deriving DecidableEq, Repr

/-- Modelled from the spec: the class `Worker` (Worker.hpp is not part of the
sources).  A worker owns the ordered job queue installed by `SetJobs`. -/
structure Worker where
  jobs : List Job
deriving DecidableEq, Repr

/-- Modelled from the spec: `Worker::SetJobs` installs the ordered job queue. -/
def Worker.SetJobs (_w : Worker) (jobQ : List Job) : Worker := { jobs := jobQ }

/-- External effects, in the order in which they happen. -/
inductive Event where
  /-- The call `Worker::Start` of the i-th worker returned 0: its thread runs -/
  | start (i : Nat)
  /-- The call `Worker::WaitStop` was made on the i-th worker of `mWorkers` -/
  | waitStop (i : Nat)
  /-- The descriptor was closed with `close` -/
  | close (fd : Int)
deriving DecidableEq, Repr

/-- The members of `ControlCenter` used by the code, and the effect log. -/
structure ControlCenter where
  mProtoType : Str
  mURL : Str
  mFileName : Str
  mFileSize : Nat
  mServerSupportRange : Bool
  mFD : Int
  mWorkers : List Worker
  mDownLoaders : List Downloader
  log : List Event
deriving DecidableEq, Repr

/-- The error codes of Error.hpp (not part of the sources). -/
structure ErrorCodes where
  E_CURL_GLOBAL_INIT : Int
  E_CURL_EASY_INIT : Int
  E_CURL_GET_FILE_SIZE : Int

/-! ## Init and GetFileSize -/

/-- The position `std::string::find_last_of` returns for a one-character set:
the last index holding `c`, `none` for `npos`. -/
def find_last_of (c : Char) : Str → Option Nat
  | [] => none
  | x :: xs =>
    match find_last_of c xs with
    | some p => some (p + 1)
    | none => if x = c then some 0 else none

/-- The single-argument `std::string::substr(pos)`. -/
def substr (s : Str) (pos : Nat) : Str := s.drop pos

/-- Whether `std::string::find(pat)` differs from `npos`. -/
def contains (s pat : Str) : Bool := s.tails.any (fun t => pat.isPrefixOf t)

/-- What libcurl answers during `GetFileSize`. -/
structure ProbeEnv where
  /-- whether `curl_easy_init` returned NULL -/
  handleNull : Bool
  /-- whether `curl_easy_perform` returned `CURLE_OK` -/
  performOK : Bool
  /-- whether `curl_easy_getinfo` returned `CURLE_OK` -/
  getinfoOK : Bool
  /-- the content length written to `cl` by `curl_easy_getinfo` (-1: unknown) -/
  cl : Int
  /-- the header text accumulated by the callback `GetHeader` -/
  header : Str
  /-- the conversion of the double `cl` to the type of `mFileSize`, which is
  declared in ControlCenter.hpp (not part of the sources) -/
  toFileSize : Int → Nat

/-- The method `ControlCenter::GetFileSize`: returns the state and `err`. -/
def GetFileSize (ec : ErrorCodes) (p : ProbeEnv) (cc : ControlCenter) :
    ControlCenter × Int :=
  if p.handleNull then
    (cc, ec.E_CURL_EASY_INIT)
  else if p.performOK then
    let cl : Int := if p.getinfoOK then p.cl else 0
    let err : Int := if p.getinfoOK then 0 else ec.E_CURL_GET_FILE_SIZE
    let cc1 := { cc with mFileSize := p.toFileSize cl }
    let cc2 :=
      if contains p.header acceptRanges then
        { cc1 with mServerSupportRange := true }
      else cc1
    (cc2, err)
  else
    (cc, ec.E_CURL_GET_FILE_SIZE)

/-- What the environment answers during `Init`. -/
structure InitEnv where
  /-- whether `curl_global_init` returned `CURLE_OK` -/
  globalInitOK : Bool
  probe : ProbeEnv
  /-- the result of `open` -/
  openResult : Int
  /-- the value of `errno` after a failed `open` -/
  errno : Int

/-- The method `ControlCenter::Init`: returns the state and `err`. -/
def Init (ec : ErrorCodes) (e : InitEnv) (cc : ControlCenter)
    (url protoType fileName : Str) : ControlCenter × Int :=
  let cc1 := { cc with mProtoType := protoType, mURL := url }
  let cc2 :=
    match find_last_of '/' fileName with
    | some pos => { cc1 with mFileName := substr fileName (pos + 1) }
    | none => { cc1 with mFileName := fileName }
  if !e.globalInitOK then
    (cc2, ec.E_CURL_GLOBAL_INIT)
  else
    let r := GetFileSize ec e.probe cc2
    if r.2 ≠ 0 then
      (r.1, r.2)
    else
      let cc3 := { r.1 with mFD := e.openResult }
      if e.openResult < 0 then (cc3, e.errno) else (cc3, 0)

/-! ## GetWorkerCount, CreateWorkers, WaitStop, StartWork -/

/-- What the environment answers during `StartWork`. -/
structure Env where
  /-- the constant `ControlCenter::ChunkSize` (ControlCenter.hpp) -/
  ChunkSize : Nat
  /-- the result of `get_nprocs()` -/
  nprocs : Nat
  /-- the result of `dl->Init()` for the downloader of worker i -/
  dlInit : Nat → Int
  /-- the result of `wk->Start()` for worker i -/
  wkStart : Nat → Int
  /-- the result of `GetExitCode()` (not part of the sources) -/
  exitCode : ControlCenter → Int

/-- The value a `uint32_t` holds after the assignment of `x`. -/
def u32 (x : Nat) : Nat := x % 2 ^ 32

/-- The method `ControlCenter::GetWorkerCount`. -/
def GetWorkerCount (env : Env) (cc : ControlCenter) : Nat :=
  if cc.mServerSupportRange then
    let count := env.nprocs * 2
    if cc.mFileSize < count * env.ChunkSize then
      cc.mFileSize / env.ChunkSize + 1
    else
      count
  else
    1

/-- The method `ControlCenter::NewDownloader`; `none` is the NULL pointer. -/
def NewDownloader (cc : ControlCenter) : Option Downloader :=
  if cc.mProtoType = HTTP then some { url := cc.mURL } else none

/-- The value of `beginOffset` in iteration `i` of `CreateWorkers`. -/
def beginOffset (mFileSize workerCount i : Nat) : Int :=
  ((i * (mFileSize / workerCount) : Nat) : Int)

/-- The value of `size` in iteration `i` of `CreateWorkers`. -/
def rangeSize (mFileSize workerCount i : Nat) : Nat :=
  if i < workerCount - 1 then
    mFileSize / workerCount
  else
    mFileSize - (mFileSize / workerCount) * (workerCount - 1)

/-- The value of the `uint32_t chunkCount` for a range of `size` bytes: the
quotient, a `size_t`, is reduced modulo 2^32 by the assignment. -/
def chunkCount (ChunkSize size : Nat) : Nat :=
  if size % ChunkSize = 0 then u32 (size / ChunkSize) else u32 (size / ChunkSize + 1)

/-- The `FileInfo` of iteration `j` of the inner loop of `CreateWorkers`. -/
def jobInfo (ChunkSize : Nat) (fd : Int) (beginOffset : Int) (size chunkCount j : Nat) :
    FileInfo :=
  { fd := fd
    mErr := 0
    offset := beginOffset + ((j * ChunkSize : Nat) : Int)
    size :=
      if j < chunkCount - 1 then ChunkSize
      else size - (chunkCount - 1) * ChunkSize }

/-- The inner loop of `CreateWorkers`: the queue `jobQ` built for one worker. -/
def buildJobQ (ChunkSize : Nat) (fd : Int) (dl : Nat) (beginOffset : Int) (size : Nat) :
    List Job :=
  (List.range (chunkCount ChunkSize size)).map fun j =>
    { dl := dl, info := jobInfo ChunkSize fd beginOffset size (chunkCount ChunkSize size) j }

/-- The outer loop of `CreateWorkers` from iteration `i` on, with `n` iterations
left (`i + n = workerCount`).  `none`: the assertion `NULL != dl` failed. -/
def createLoop (env : Env) (workerCount : Nat) :
    Nat → Nat → ControlCenter → Option (ControlCenter × Int)
  | 0, _, cc => some (cc, 0)
  | n + 1, i, cc =>
    let wk : Worker := { jobs := [] }
    let cc1 := { cc with mWorkers := cc.mWorkers ++ [wk] }
    match NewDownloader cc1 with
    | none => none
    | some d =>
      let dl := cc1.mDownLoaders.length
      let cc2 := { cc1 with mDownLoaders := cc1.mDownLoaders ++ [d] }
      let err := env.dlInit i
      if err ≠ 0 then
        some (cc2, err)
      else
        let jobQ := buildJobQ env.ChunkSize cc2.mFD dl
          (beginOffset cc2.mFileSize workerCount i) (rangeSize cc2.mFileSize workerCount i)
        let cc3 := { cc2 with mWorkers := cc.mWorkers ++ [wk.SetJobs jobQ] }
        let err := env.wkStart i
        if err ≠ 0 then
          some (cc3, err)
        else
          createLoop env workerCount n (i + 1)
            { cc3 with log := cc3.log ++ [Event.start i] }

/-- The body of `CreateWorkers` once `workerCount` is known. -/
def CreateWorkersWith (env : Env) (workerCount : Nat) (cc : ControlCenter) :
    Option (ControlCenter × Int) :=
  createLoop env workerCount workerCount 0 cc

/-- The method `ControlCenter::CreateWorkers`: returns the state and `err`;
`none` when the assertion on the downloader fails. -/
def CreateWorkers (env : Env) (cc : ControlCenter) : Option (ControlCenter × Int) :=
  CreateWorkersWith env (GetWorkerCount env cc) cc

/-- The method `ControlCenter::WaitStop`. -/
def WaitStop (cc : ControlCenter) : ControlCenter :=
  let waits := (List.range cc.mWorkers.length).map Event.waitStop
  let cc1 := { cc with mWorkers := [], log := cc.log ++ waits }
  if cc1.mFD ≠ -1 then { cc1 with log := cc1.log ++ [Event.close cc1.mFD] } else cc1

/-- The method `ControlCenter::StartWork`: returns the state and `err`. -/
def StartWork (env : Env) (cc : ControlCenter) : Option (ControlCenter × Int) :=
  match CreateWorkers env cc with
  | none => none
  | some (cc1, err) =>
    if err ≠ 0 then
      some (cc1, err)
    else
      let cc2 := WaitStop cc1
      some (cc2, env.exitCode cc2)

/-! ## The counter `count`

`count` is `uint32_t` in the source.  The definition below repeats
`GetWorkerCount` with the reduction modulo 2^32 at every assignment to it; the
section "Machine integers" shows that it agrees with the definition above for
every processor count that fits an `int`. -/

/-- The method `ControlCenter::GetWorkerCount` with `count` reduced modulo 2^32. -/
def GetWorkerCount32 (env : Env) (cc : ControlCenter) : Nat :=
  if cc.mServerSupportRange then
    let count := u32 (env.nprocs * 2)
    if cc.mFileSize < count * env.ChunkSize then
      u32 (cc.mFileSize / env.ChunkSize + 1)
    else
      count
  else
    u32 1

/-! ## Vocabulary of the properties -/

/-- The jobs of a list of workers, worker after worker, each queue in order. -/
def allJobs (ws : List Worker) : List Job := (ws.map Worker.jobs).flatten

/-- The byte interval of a job as the pair (offset, size). -/
def Job.span (j : Job) : Int × Nat := (j.info.offset, j.info.size)

/-- Byte `x` lies in the interval `[offset, offset + size)` of job `j`. -/
def Job.covers (j : Job) (x : Int) : Prop :=
  j.info.offset ≤ x ∧ x < j.info.offset + j.info.size

/-- The intervals of two jobs have no byte in common. -/
def Job.disjoint (j k : Job) : Prop :=
  j.info.offset + j.info.size ≤ k.info.offset ∨ k.info.offset + k.info.size ≤ j.info.offset

/-- The queue `l` tiles `[a, b)` in increasing offset order: the first job starts
at `a`, every job has positive size, each job starts where the previous one ends,
and the last job ends at `b` (an empty queue tiles the empty range only). -/
def Tiles (a b : Int) : List Job → Prop
  | [] => a = b
  | j :: t => j.info.offset = a ∧ 0 < j.info.size ∧ Tiles (a + j.info.size) b t

/-- The worker that iteration `k` of `CreateWorkers` leaves in `mWorkers` when
the downloader of iteration 0 was stored at position `d0` of `mDownLoaders`. -/
def builtWorker (env : Env) (cc : ControlCenter) (workerCount d0 k : Nat) : Worker :=
  { jobs := buildJobQ env.ChunkSize cc.mFD (d0 + k)
      (beginOffset cc.mFileSize workerCount k) (rangeSize cc.mFileSize workerCount k) }

/-- The queue as the specification words it, with `fuel` pieces at most: pieces
of `ChunkSize` bytes laid back to back from `start`, the last piece taking the
bytes that remain. -/
def specQueueAux (ChunkSize : Nat) : Nat → Int → Nat → List (Int × Nat)
  | 0, _, _ => []
  | fuel + 1, start, size =>
    if size = 0 then []
    else if size ≤ ChunkSize then [(start, size)]
    else (start, ChunkSize) :: specQueueAux ChunkSize fuel (start + ChunkSize) (size - ChunkSize)

/-- The queue of a range `[start, start + size)` as the specification words it
(no more than `size` pieces are needed when `ChunkSize` is positive). -/
def specQueue (ChunkSize : Nat) (start : Int) (size : Nat) : List (Int × Nat) :=
  specQueueAux ChunkSize size start size

/-- A control center as a successful `Init` leaves it: protocol HTTP, a file of
`F` bytes, descriptor 3, no worker yet. -/
def readyCC (F : Nat) (supportsRange : Bool) : ControlCenter :=
  { mProtoType := HTTP, mURL := [], mFileName := ['f'], mFileSize := F,
    mServerSupportRange := supportsRange, mFD := 3, mWorkers := [], mDownLoaders := [],
    log := [] }

/-- An environment in which every `Init` and every `Start` returns 0. -/
def okEnv (ChunkSize nprocs : Nat) : Env :=
  { ChunkSize := ChunkSize, nprocs := nprocs, dlInit := fun _ => 0, wkStart := fun _ => 0,
    exitCode := fun _ => 0 }

/-- An environment in which `Init` of the downloader of worker 1 returns 7. -/
def initFailsAt1 (ChunkSize nprocs : Nat) : Env :=
  { ChunkSize := ChunkSize, nprocs := nprocs, dlInit := fun i => if i = 1 then 7 else 0,
    wkStart := fun _ => 0, exitCode := fun _ => 0 }

/-- Error codes for the examples: 101, 102, 103. -/
def sampleCodes : ErrorCodes :=
  { E_CURL_GLOBAL_INIT := 101, E_CURL_EASY_INIT := 102, E_CURL_GET_FILE_SIZE := 103 }

/-- A probe that completes against a server which sends no Content-Length:
`curl_easy_perform` and `curl_easy_getinfo` return `CURLE_OK` and the content
length is reported as -1. -/
def unknownLengthProbe (header : Str) (toFileSize : Int → Nat) : ProbeEnv :=
  { handleNull := false, performOK := true, getinfoOK := true, cl := -1,
    header := header, toFileSize := toFileSize }

instance (j : Job) (x : Int) : Decidable (j.covers x) :=
  inferInstanceAs (Decidable (_ ∧ _))

instance (j k : Job) : Decidable (j.disjoint k) :=
  inferInstanceAs (Decidable (_ ∨ _))

/-- Whether `l` tiles `[a, b)` can be computed. -/
def Tiles.decide : (a b : Int) → (l : List Job) → Decidable (Tiles a b l)
  | a, b, [] => inferInstanceAs (Decidable (a = b))
  | a, b, j :: t =>
    have := Tiles.decide (a + j.info.size) b t
    inferInstanceAs (Decidable (_ ∧ _ ∧ _))

instance (a b : Int) (l : List Job) : Decidable (Tiles a b l) := Tiles.decide a b l

/-- The quotient rounded up. -/
def ceilDiv (a b : Nat) : Nat := (a + b - 1) / b

/-- The number of chunks of a range of `size` bytes: the value of the source
expression for `chunkCount` before it is stored in the `uint32_t`. -/
def exactChunkCount (ChunkSize size : Nat) : Nat :=
  if size % ChunkSize = 0 then size / ChunkSize else size / ChunkSize + 1

/-- The queue that the inner loop builds when `chunkCount` holds the exact number
of chunks (see `buildJobQ_eq_exactJobQ`). -/
def exactJobQ (ChunkSize : Nat) (fd : Int) (dl : Nat) (beginOffset : Int) (size : Nat) :
    List Job :=
  (List.range (exactChunkCount ChunkSize size)).map fun j =>
    { dl := dl
      info := jobInfo ChunkSize fd beginOffset size (exactChunkCount ChunkSize size) j }

/-- No chunk count wraps: the range of every worker has fewer than 2^32 chunks,
so that the `uint32_t chunkCount` holds the exact number of chunks. -/
def NoWrap (F W ChunkSize : Nat) : Prop :=
  ∀ i, i < W → ceilDiv (rangeSize F W i) ChunkSize < 2 ^ 32

instance (F W ChunkSize : Nat) : Decidable (NoWrap F W ChunkSize) :=
  inferInstanceAs (Decidable (∀ i, i < W → _))

/-- The queue `q` is the queue the specification describes for the range
`[start, start + size)`: it is the list `specQueue`, it tiles the range in
increasing offset order, it has as many jobs as the range has chunks, job `j`
starts at `start + j * ChunkSize`, and every job has `ChunkSize` bytes except the
last, which has the bytes that remain. -/
def IsSpecQueue (ChunkSize : Nat) (start : Int) (size : Nat) (q : List Job) : Prop :=
  q.map Job.span = specQueue ChunkSize start size ∧
  Tiles start (start + size) q ∧
  q.length = ceilDiv size ChunkSize ∧
  ∀ j (hj : j < q.length),
    (q.get ⟨j, hj⟩).info.offset = start + ((j * ChunkSize : Nat) : Int) ∧
    (q.get ⟨j, hj⟩).info.size =
      if j + 1 < q.length then ChunkSize else size - j * ChunkSize

/-- The spans of the queues of the workers of a result of `CreateWorkers`. -/
def queueSpans (r : Option (ControlCenter × Int)) : Option (List (List (Int × Nat))) :=
  r.map fun p => p.1.mWorkers.map fun w => w.jobs.map Job.span

/-! ## Tiling lemmas -/

theorem Tiles.le {a b : Int} {l : List Job} (h : Tiles a b l) : a ≤ b := by
  induction l generalizing a with
  | nil => exact Int.le_of_eq h
  | cons j t ih =>
    obtain ⟨-, -, h3⟩ := h
    have := ih h3
    omega

theorem Tiles.append {a b c : Int} {l₁ l₂ : List Job}
    (h₁ : Tiles a b l₁) (h₂ : Tiles b c l₂) : Tiles a c (l₁ ++ l₂) := by
  induction l₁ generalizing a with
  | nil =>
    have hab : a = b := h₁
    subst hab
    simpa using h₂
  | cons j t ih =>
    obtain ⟨h1, h2, h3⟩ := h₁
    exact ⟨h1, h2, ih h3⟩

theorem Tiles.bounds {a b : Int} {l : List Job} (h : Tiles a b l) :
    ∀ j ∈ l, a ≤ j.info.offset ∧ 0 < j.info.size ∧ j.info.offset + j.info.size ≤ b := by
  induction l generalizing a with
  | nil => intro j hj; cases hj
  | cons j t ih =>
    obtain ⟨h1, h2, h3⟩ := h
    intro k hk
    rcases List.mem_cons.1 hk with rfl | hk
    · have := Tiles.le h3
      refine ⟨?_, h2, ?_⟩ <;> omega
    · have := ih h3 k hk
      refine ⟨?_, this.2.1, this.2.2⟩
      omega

theorem Tiles.sorted {a b : Int} {l : List Job} (h : Tiles a b l) :
    l.Pairwise (fun j k => j.info.offset + (j.info.size : Int) ≤ k.info.offset) := by
  induction l generalizing a with
  | nil => exact List.Pairwise.nil
  | cons j t ih =>
    obtain ⟨h1, h2, h3⟩ := h
    refine List.Pairwise.cons ?_ (ih h3)
    intro k hk
    have := Tiles.bounds h3 k hk
    omega

theorem Tiles.pairwise_disjoint {a b : Int} {l : List Job} (h : Tiles a b l) :
    l.Pairwise Job.disjoint :=
  (Tiles.sorted h).imp (fun h => Or.inl h)

theorem Tiles.cover {a b : Int} {l : List Job} (h : Tiles a b l) (x : Int) :
    (a ≤ x ∧ x < b) ↔ ∃ j ∈ l, j.covers x := by
  induction l generalizing a with
  | nil =>
    have hab : a = b := h
    subst hab
    constructor
    · intro hx; omega
    · rintro ⟨j, hj, -⟩; cases hj
  | cons j t ih =>
    obtain ⟨h1, h2, h3⟩ := h
    have hle := Tiles.le h3
    constructor
    · intro hx
      by_cases hlt : x < a + j.info.size
      · exact ⟨j, List.mem_cons_self _ _, by unfold Job.covers; omega⟩
      · obtain ⟨k, hk, hc⟩ := (ih h3).1 ⟨by omega, hx.2⟩
        exact ⟨k, List.mem_cons_of_mem _ hk, hc⟩
    · rintro ⟨k, hk, hc⟩
      rcases List.mem_cons.1 hk with rfl | hk
      · unfold Job.covers at hc; omega
      · have := (ih h3).2 ⟨k, hk, hc⟩
        omega

theorem Tiles.ne_nil {a b : Int} {l : List Job} (h : Tiles a b l) (hab : a < b) : l ≠ [] := by
  intro hl
  subst hl
  have : a = b := h
  omega

/-- Jobs cut at the boundaries `bd i < bd (i+1) < ...` tile the range between
the first and the last boundary. -/
theorem tiles_map_range' (bd : Nat → Int) (mk : Nat → Job) :
    ∀ (n i : Nat),
      (∀ k, i ≤ k → k < i + n →
        (mk k).info.offset = bd k ∧ ((mk k).info.size : Int) = bd (k + 1) - bd k ∧
          bd k < bd (k + 1)) →
      Tiles (bd i) (bd (i + n)) ((List.range' i n).map mk) := by
  intro n
  induction n with
  | zero => intro i _; simp [Tiles]
  | succ n ih =>
    intro i h
    obtain ⟨h1, h2, h3⟩ := h i (Nat.le_refl _) (by omega)
    rw [List.range'_succ, List.map_cons]
    refine ⟨h1, by omega, ?_⟩
    have e : bd i + (mk i).info.size = bd (i + 1) := by omega
    have e2 : i + (n + 1) = (i + 1) + n := by omega
    rw [e, e2]
    exact ih (i + 1) (fun k hk1 hk2 => h k (by omega) (by omega))

/-- Queues that tile consecutive ranges tile, one after the other, the whole. -/
theorem tiles_flatten_range' (bd : Nat → Int) (ls : Nat → List Job) :
    ∀ (n i : Nat),
      (∀ k, i ≤ k → k < i + n → Tiles (bd k) (bd (k + 1)) (ls k)) →
      Tiles (bd i) (bd (i + n)) ((List.range' i n).map ls).flatten := by
  intro n
  induction n with
  | zero => intro i _; simp [Tiles]
  | succ n ih =>
    intro i h
    rw [List.range'_succ, List.map_cons, List.flatten_cons]
    have e2 : i + (n + 1) = (i + 1) + n := by omega
    rw [e2]
    exact Tiles.append (h i (Nat.le_refl _) (by omega))
      (ih (i + 1) (fun k hk1 hk2 => h k (by omega) (by omega)))

/-! ## The inner loop: the queue of one worker -/

theorem u32_of_lt {x : Nat} (h : x < 2 ^ 32) : u32 x = x := Nat.mod_eq_of_lt h

theorem exactChunkCount_mul_ge (CS size : Nat) (hCS : 1 ≤ CS) :
    size ≤ exactChunkCount CS size * CS := by
  have h1 := Nat.div_add_mod size CS
  have h2 := Nat.mod_lt size (show 0 < CS by omega)
  have h3 : CS * (size / CS) = size / CS * CS := Nat.mul_comm _ _
  unfold exactChunkCount
  split
  · omega
  · rw [Nat.succ_mul]; omega

theorem exactChunkCount_pred_mul_lt (CS size : Nat) (hCS : 1 ≤ CS) (hs : 0 < size) :
    (exactChunkCount CS size - 1) * CS < size := by
  have h1 := Nat.div_add_mod size CS
  have h2 := Nat.mod_lt size (show 0 < CS by omega)
  have h3 : CS * (size / CS) = size / CS * CS := Nat.mul_comm _ _
  unfold exactChunkCount
  split
  · rename_i h0
    have hq : 0 < size / CS := by
      rcases Nat.eq_zero_or_pos (size / CS) with h | h
      · rw [h] at h1; omega
      · exact h
    rw [Nat.sub_mul]
    omega
  · rw [Nat.add_sub_cancel]; omega

theorem exactChunkCount_eq_zero_iff (CS size : Nat) (hCS : 1 ≤ CS) :
    exactChunkCount CS size = 0 ↔ size = 0 := by
  constructor
  · intro h
    have := exactChunkCount_mul_ge CS size hCS
    rw [h] at this
    omega
  · intro h
    subst h
    simp [exactChunkCount]

theorem exactChunkCount_eq_ceilDiv (CS size : Nat) (hCS : 1 ≤ CS) :
    exactChunkCount CS size = ceilDiv size CS := by
  have hpos : 0 < CS := by omega
  have h1 := Nat.div_add_mod size CS
  have h2 := Nat.mod_lt size hpos
  have h3 : CS * (size / CS) = size / CS * CS := Nat.mul_comm _ _
  have h4 : (size / CS + 1) * CS = size / CS * CS + CS := Nat.succ_mul _ _
  have h5 : (size / CS + 1 + 1) * CS = (size / CS + 1) * CS + CS := Nat.succ_mul _ _
  unfold exactChunkCount ceilDiv
  split
  · symm
    apply Nat.div_eq_of_lt_le
    · omega
    · show size + CS - 1 < (size / CS + 1) * CS
      omega
  · symm
    apply Nat.div_eq_of_lt_le
    · omega
    · show size + CS - 1 < (size / CS + 1 + 1) * CS
      omega

/-- The `uint32_t chunkCount` holds the exact number of chunks of a range that
has fewer than 2^32 chunks. -/
theorem chunkCount_eq_exact (CS size : Nat) (hCS : 1 ≤ CS)
    (hfit : ceilDiv size CS < 2 ^ 32) : chunkCount CS size = exactChunkCount CS size := by
  rw [← exactChunkCount_eq_ceilDiv CS size hCS] at hfit
  unfold exactChunkCount at hfit
  unfold chunkCount exactChunkCount
  split
  · rename_i h0
    rw [if_pos h0] at hfit
    exact u32_of_lt hfit
  · rename_i h0
    rw [if_neg h0] at hfit
    exact u32_of_lt hfit

/-- The queue built for a range with fewer than 2^32 chunks tiles that range. -/
theorem buildJobQ_tiles (CS : Nat) (fd : Int) (dl : Nat) (b : Int) (size : Nat)
    (hCS : 1 ≤ CS) (hfit : ceilDiv size CS < 2 ^ 32) :
    Tiles b (b + size) (buildJobQ CS fd dl b size) := by
  have hc := chunkCount_eq_exact CS size hCS hfit
  have hge := exactChunkCount_mul_ge CS size hCS
  have hz := exactChunkCount_eq_zero_iff CS size hCS
  have key := tiles_map_range'
    (fun k => if k < exactChunkCount CS size then b + ((k * CS : Nat) : Int) else b + size)
    (fun j => ({ dl := dl, info := jobInfo CS fd b size (exactChunkCount CS size) j } : Job))
    (exactChunkCount CS size) 0 (by
      intro k _ hk
      have hk : k < exactChunkCount CS size := by omega
      have hs : 0 < size := by
        rcases Nat.eq_zero_or_pos size with h | h
        · have := hz.2 h; omega
        · exact h
      have hlt := exactChunkCount_pred_mul_lt CS size hCS hs
      have hsm : (k + 1) * CS = k * CS + CS := Nat.succ_mul k CS
      simp only [jobInfo, if_pos hk]
      by_cases hk1 : k < exactChunkCount CS size - 1
      · have hk2 : k + 1 < exactChunkCount CS size := by omega
        simp only [if_pos hk1, if_pos hk2]
        refine ⟨trivial, ?_, ?_⟩ <;> omega
      · have hk2 : ¬ (k + 1 < exactChunkCount CS size) := by omega
        have hk3 : k = exactChunkCount CS size - 1 := by omega
        simp only [if_neg hk1, if_neg hk2]
        rw [← hk3] at hlt ⊢
        refine ⟨trivial, ?_, ?_⟩ <;> omega)
  have e0 : (if 0 < exactChunkCount CS size then b + ((0 * CS : Nat) : Int) else b + size)
      = b := by
    split
    · simp
    · have : size = 0 := hz.1 (by omega)
      simp [this]
  simp only [Nat.zero_add, lt_irrefl, if_false] at key
  rw [e0] at key
  unfold buildJobQ
  rw [hc, List.range_eq_range']
  exact key

theorem buildJobQ_eq_exactJobQ (CS : Nat) (fd : Int) (dl : Nat) (b : Int) (size : Nat)
    (hCS : 1 ≤ CS) (hfit : ceilDiv size CS < 2 ^ 32) :
    buildJobQ CS fd dl b size = exactJobQ CS fd dl b size := by
  unfold buildJobQ exactJobQ
  rw [chunkCount_eq_exact CS size hCS hfit]

/-- No job of a queue is larger than `ChunkSize`. -/
theorem exactJobQ_size_le (CS : Nat) (fd : Int) (dl : Nat) (b : Int) (size : Nat)
    (hCS : 1 ≤ CS) : ∀ j ∈ exactJobQ CS fd dl b size, j.info.size ≤ CS := by
  intro j hj
  unfold exactJobQ at hj
  obtain ⟨k, hk, rfl⟩ := List.mem_map.1 hj
  rw [List.mem_range] at hk
  have hge := exactChunkCount_mul_ge CS size hCS
  simp only [jobInfo]
  split
  · exact Nat.le_refl _
  · have e : exactChunkCount CS size = (exactChunkCount CS size - 1) + 1 := by omega
    rw [e, Nat.succ_mul] at hge
    omega

/-! ## The outer loop -/

/-- When the protocol is HTTP and every `Init` and `Start` succeeds, the loop
runs all its iterations and returns 0. -/
theorem createLoop_ok (env : Env) (W d0 : Nat) :
    ∀ (n i : Nat) (cc : ControlCenter), cc.mProtoType = HTTP →
      cc.mDownLoaders.length = d0 + i →
      (∀ k, i ≤ k → k < i + n → env.dlInit k = 0 ∧ env.wkStart k = 0) →
      createLoop env W n i cc = some
        ({ cc with
            mWorkers := cc.mWorkers ++ (List.range' i n).map (builtWorker env cc W d0)
            mDownLoaders := cc.mDownLoaders ++ List.replicate n { url := cc.mURL }
            log := cc.log ++ (List.range' i n).map Event.start }, 0) := by
  intro n
  induction n with
  | zero =>
    intro i cc _ _ _
    simp [createLoop]
  | succ n ih =>
    intro i cc hp hd h
    obtain ⟨hi1, hi2⟩ := h i (Nat.le_refl _) (by omega)
    have hrec := ih (i + 1)
      { cc with
          mWorkers := cc.mWorkers ++ [builtWorker env cc W d0 i]
          mDownLoaders := cc.mDownLoaders ++ [{ url := cc.mURL }]
          log := cc.log ++ [Event.start i] }
      hp (by simp [hd]; omega) (fun k hk1 hk2 => h k (by omega) (by omega))
    obtain ⟨pt, url, fn, fs, sr, fd, ws, ds, lg⟩ := cc
    simp only at hp hd
    subst hp
    simp only [createLoop, NewDownloader, if_true, hi1, hi2, ne_eq, not_true_eq_false,
      if_false, Worker.SetJobs, hd]
    simp only [builtWorker] at hrec
    rw [hrec]
    simp [List.range'_succ, builtWorker, List.replicate_succ]

theorem CreateWorkersWith_ok (env : Env) (cc : ControlCenter) (W : Nat)
    (hproto : cc.mProtoType = HTTP)
    (hok : ∀ i, i < W → env.dlInit i = 0 ∧ env.wkStart i = 0) :
    CreateWorkersWith env W cc = some
      ({ cc with
          mWorkers := cc.mWorkers ++
            (List.range' 0 W).map (builtWorker env cc W cc.mDownLoaders.length)
          mDownLoaders := cc.mDownLoaders ++ List.replicate W { url := cc.mURL }
          log := cc.log ++ (List.range' 0 W).map Event.start }, 0) :=
  createLoop_ok env W cc.mDownLoaders.length W 0 cc hproto rfl
    (fun k _ hk => hok k (by omega))

theorem length_builtWorkers (env : Env) (cc : ControlCenter) (W d0 : Nat) :
    ((List.range' 0 W).map (builtWorker env cc W d0)).length = W := by
  simp

theorem getElem?_builtWorkers (env : Env) (cc : ControlCenter) (W d0 i : Nat) (hi : i < W) :
    ((List.range' 0 W).map (builtWorker env cc W d0))[i]? = some (builtWorker env cc W d0 i) := by
  rw [List.getElem?_map, List.getElem?_range' 0 1 hi]
  simp

/-- The range of worker `k + 1` begins where the range of worker `k` ends, and
the range of the last worker ends at the file size. -/
theorem beginOffset_add_rangeSize (F W k : Nat) (hk : k < W) :
    beginOffset F W k + (rangeSize F W k : Int) =
      if k + 1 < W then beginOffset F W (k + 1) else (F : Int) := by
  have hnat : k * (F / W) + rangeSize F W k = if k + 1 < W then (k + 1) * (F / W) else F := by
    have hle : F / W * W ≤ F := Nat.div_mul_le_self F W
    unfold rangeSize
    generalize F / W = q at hle ⊢
    by_cases h1 : k < W - 1
    · have h2 : k + 1 < W := by omega
      rw [if_pos h1, if_pos h2, Nat.succ_mul]
    · have h2 : ¬ (k + 1 < W) := by omega
      have h3 : W - 1 = k := by omega
      have h4 : W = k + 1 := by omega
      rw [if_neg h1, if_neg h2, h3]
      rw [h4, Nat.mul_succ] at hle
      have h5 : q * k = k * q := Nat.mul_comm _ _
      omega
  unfold beginOffset
  by_cases h : k + 1 < W
  · rw [if_pos h] at hnat ⊢
    exact_mod_cast hnat
  · rw [if_neg h] at hnat ⊢
    exact_mod_cast hnat

/-- The queue of worker `k` tiles the range of worker `k`. -/
theorem builtWorker_tiles (env : Env) (cc : ControlCenter) (W d0 k : Nat)
    (hCS : 1 ≤ env.ChunkSize)
    (hfit : ceilDiv (rangeSize cc.mFileSize W k) env.ChunkSize < 2 ^ 32) :
    Tiles (beginOffset cc.mFileSize W k)
      (beginOffset cc.mFileSize W k + (rangeSize cc.mFileSize W k : Int))
      (builtWorker env cc W d0 k).jobs :=
  buildJobQ_tiles env.ChunkSize cc.mFD (d0 + k) _ _ hCS hfit

/-- The queues of all workers, one after the other, tile the file. -/
theorem allJobs_tiles (env : Env) (cc : ControlCenter) (W d0 : Nat)
    (hW : 1 ≤ W) (hCS : 1 ≤ env.ChunkSize) (hfit : NoWrap cc.mFileSize W env.ChunkSize) :
    Tiles 0 (cc.mFileSize : Int)
      (allJobs ((List.range' 0 W).map (builtWorker env cc W d0))) := by
  have key := tiles_flatten_range'
    (fun k => if k < W then beginOffset cc.mFileSize W k else (cc.mFileSize : Int))
    (fun k => (builtWorker env cc W d0 k).jobs) W 0 (by
      intro k _ hk
      have hk : k < W := by omega
      have h := builtWorker_tiles env cc W d0 k hCS (hfit k hk)
      rw [beginOffset_add_rangeSize _ _ _ hk] at h
      simp only [if_pos hk]
      exact h)
  have hW0 : 0 < W := by omega
  simp only [Nat.zero_add, lt_irrefl, if_false, if_pos hW0] at key
  have e0 : beginOffset cc.mFileSize W 0 = 0 := by simp [beginOffset]
  rw [e0] at key
  unfold allJobs
  rw [List.map_map]
  exact key

theorem mem_allJobs_builtWorkers (env : Env) (cc : ControlCenter) (W d0 : Nat) (j : Job)
    (hj : j ∈ allJobs ((List.range' 0 W).map (builtWorker env cc W d0))) :
    ∃ k, k < W ∧ j ∈ (builtWorker env cc W d0 k).jobs := by
  unfold allJobs at hj
  rw [List.map_map, List.mem_flatten] at hj
  obtain ⟨l, hl, hjl⟩ := hj
  obtain ⟨k, hk, rfl⟩ := List.mem_map.1 hl
  rw [List.mem_range'_1] at hk
  exact ⟨k, by omega, hjl⟩

/-! ## The queue of the code and the queue of the specification -/

theorem exactChunkCount_of_le (CS size : Nat) (hs : 0 < size) (hle : size ≤ CS) :
    exactChunkCount CS size = 1 := by
  unfold exactChunkCount
  rcases Nat.lt_or_eq_of_le hle with h | h
  · rw [Nat.mod_eq_of_lt h, Nat.div_eq_of_lt h, if_neg (by omega)]
  · subst h
    rw [Nat.mod_self, if_pos rfl, Nat.div_self hs]

theorem exactChunkCount_of_gt (CS size : Nat) (hCS : 1 ≤ CS) (hgt : CS < size) :
    exactChunkCount CS size = exactChunkCount CS (size - CS) + 1 := by
  have hpos : 0 < CS := by omega
  have h1 : size % CS = (size - CS) % CS := Nat.mod_eq_sub_mod (by omega)
  have h2 : size / CS = (size - CS) / CS + 1 := Nat.div_eq_sub_div hpos (by omega)
  unfold exactChunkCount
  rw [h1, h2]
  split <;> rfl

theorem exactJobQ_span_cons (CS : Nat) (fd : Int) (dl : Nat) (b : Int) (size : Nat)
    (hCS : 1 ≤ CS) (hgt : CS < size) :
    (exactJobQ CS fd dl b size).map Job.span =
      (b, CS) :: (exactJobQ CS fd dl (b + CS) (size - CS)).map Job.span := by
  have hc := exactChunkCount_of_gt CS size hCS hgt
  have hc0 : 0 < exactChunkCount CS (size - CS) := by
    have := exactChunkCount_eq_zero_iff CS (size - CS) hCS
    omega
  have hlt := exactChunkCount_pred_mul_lt CS (size - CS) hCS (by omega)
  unfold exactJobQ
  rw [hc, List.range_succ_eq_map]
  simp only [List.map_cons, List.map_map, Job.span, jobInfo, Nat.add_sub_cancel,
    Function.comp_def]
  congr 1
  · simp [hc0]
  · apply List.map_congr_left
    intro k hk
    rw [List.mem_range] at hk
    have e1 : b + (((k + 1) * CS : Nat) : Int) = b + CS + ((k * CS : Nat) : Int) := by
      rw [Nat.succ_mul]; push_cast; omega
    have e2 : (k + 1 < exactChunkCount CS (size - CS)) ↔
        (k < exactChunkCount CS (size - CS) - 1) := by
      omega
    have e3 : size - exactChunkCount CS (size - CS) * CS =
        size - CS - (exactChunkCount CS (size - CS) - 1) * CS := by
      have e : exactChunkCount CS (size - CS) = (exactChunkCount CS (size - CS) - 1) + 1 := by
        omega
      rw [e, Nat.succ_mul, Nat.add_sub_cancel]
      omega
    simp only [Nat.succ_eq_add_one, e1, e2, e3]

theorem exactJobQ_span_eq_specQueueAux (CS : Nat) (fd : Int) (dl : Nat) (hCS : 1 ≤ CS) :
    ∀ (fuel size : Nat) (b : Int), size ≤ fuel →
      (exactJobQ CS fd dl b size).map Job.span = specQueueAux CS fuel b size := by
  intro fuel
  induction fuel with
  | zero =>
    intro size b h
    have h0 : size = 0 := by omega
    subst h0
    simp [exactJobQ, exactChunkCount, specQueueAux]
  | succ n ih =>
    intro size b h
    unfold specQueueAux
    by_cases h0 : size = 0
    · subst h0
      simp [exactJobQ, exactChunkCount]
    · rw [if_neg h0]
      by_cases hle : size ≤ CS
      · rw [if_pos hle]
        have hc := exactChunkCount_of_le CS size (by omega) hle
        simp [exactJobQ, hc, Job.span, jobInfo, List.range_succ]
      · rw [if_neg hle, exactJobQ_span_cons CS fd dl b size hCS (by omega),
          ih (size - CS) (b + CS) (by omega)]

/-- The queue the code builds for a range with fewer than 2^32 chunks is the
queue of the specification. -/
theorem buildJobQ_isSpecQueue (CS : Nat) (fd : Int) (dl : Nat) (b : Int) (size : Nat)
    (hCS : 1 ≤ CS) (hfit : ceilDiv size CS < 2 ^ 32) :
    IsSpecQueue CS b size (buildJobQ CS fd dl b size) := by
  refine ⟨?_, buildJobQ_tiles CS fd dl b size hCS hfit, ?_, ?_⟩
  · rw [buildJobQ_eq_exactJobQ CS fd dl b size hCS hfit]
    exact exactJobQ_span_eq_specQueueAux CS fd dl hCS size size b (Nat.le_refl _)
  · rw [buildJobQ_eq_exactJobQ CS fd dl b size hCS hfit,
      ← exactChunkCount_eq_ceilDiv CS size hCS]
    simp [exactJobQ]
  · rw [buildJobQ_eq_exactJobQ CS fd dl b size hCS hfit]
    intro j hj
    have hlen : (exactJobQ CS fd dl b size).length = exactChunkCount CS size := by
      simp [exactJobQ]
    have hj2 : j < exactChunkCount CS size := by omega
    simp only [List.get_eq_getElem, hlen]
    simp only [exactJobQ, List.getElem_map, List.getElem_range, jobInfo, true_and]
    by_cases h1 : j < exactChunkCount CS size - 1
    · rw [if_pos h1, if_pos (by omega)]
    · rw [if_neg h1, if_neg (by omega)]
      have : exactChunkCount CS size - 1 = j := by omega
      rw [this]

theorem buildJobQ_size_le (CS : Nat) (fd : Int) (dl : Nat) (b : Int) (size : Nat)
    (hCS : 1 ≤ CS) (hfit : ceilDiv size CS < 2 ^ 32) :
    ∀ j ∈ buildJobQ CS fd dl b size, j.info.size ≤ CS := by
  rw [buildJobQ_eq_exactJobQ CS fd dl b size hCS hfit]
  exact exactJobQ_size_le CS fd dl b size hCS

/-! ## The partition built by CreateWorkers -/

/-- C1: for every file size F, worker count W >= 1 and ChunkSize >= 1, in exact
integer arithmetic (no chunk count wraps: the range of every worker has fewer
than 2^32 chunks), when the protocol is HTTP and every Init and Start succeeds,
CreateWorkers runs to the end with result 0 and appends W workers; the
intervals [offset, offset+size) of all their jobs are pairwise disjoint and a
byte position lies in one of them exactly when it lies in [0, F). -/
theorem CreateWorkers_partition (env : Env) (cc : ControlCenter) (W : Nat)
    (hW : 1 ≤ W) (hCS : 1 ≤ env.ChunkSize) (hfit : NoWrap cc.mFileSize W env.ChunkSize)
    (hproto : cc.mProtoType = HTTP)
    (hok : ∀ i, i < W → env.dlInit i = 0 ∧ env.wkStart i = 0) :
    ∃ cc1 ws, CreateWorkersWith env W cc = some (cc1, 0) ∧
      cc1.mWorkers = cc.mWorkers ++ ws ∧ ws.length = W ∧
      (allJobs ws).Pairwise Job.disjoint ∧
      ∀ x : Int, (0 ≤ x ∧ x < cc.mFileSize) ↔ ∃ j ∈ allJobs ws, j.covers x := by
  refine ⟨_, _, CreateWorkersWith_ok env cc W hproto hok, rfl,
    length_builtWorkers env cc W _, ?_, ?_⟩
  · exact (allJobs_tiles env cc W _ hW hCS hfit).pairwise_disjoint
  · intro x
    exact (allJobs_tiles env cc W _ hW hCS hfit).cover x

theorem CreateWorkers_partition_witness :
    (1 ≤ 2 ∧ 1 ≤ (okEnv 4 1).ChunkSize ∧
      NoWrap (readyCC 10 true).mFileSize 2 (okEnv 4 1).ChunkSize ∧
      (readyCC 10 true).mProtoType = HTTP ∧
      ∀ i, i < 2 → (okEnv 4 1).dlInit i = 0 ∧ (okEnv 4 1).wkStart i = 0) ∧
    ∃ cc1 ws, CreateWorkersWith (okEnv 4 1) 2 (readyCC 10 true) = some (cc1, 0) ∧
      cc1.mWorkers = (readyCC 10 true).mWorkers ++ ws ∧ ws.length = 2 ∧
      (allJobs ws).Pairwise Job.disjoint ∧
      ∀ x : Int, (0 ≤ x ∧ x < (readyCC 10 true).mFileSize) ↔
        ∃ j ∈ allJobs ws, j.covers x :=
  ⟨⟨by decide, by decide, by decide, rfl, fun _ _ => ⟨rfl, rfl⟩⟩,
    CreateWorkers_partition (okEnv 4 1) (readyCC 10 true) 2 (by decide) (by decide)
      (by decide) rfl (fun _ _ => ⟨rfl, rfl⟩)⟩

/-- C6 as stated fails for F = 2^34 + 4, ChunkSize = 4, W = 1: the range has
2^32 + 1 chunks, the `uint32_t chunkCount` holds 1, and the only job that
CreateWorkers builds has all 2^34 + 4 bytes, more than ChunkSize. -/
theorem job_larger_than_ChunkSize :
    queueSpans (CreateWorkersWith (okEnv 4 1) 1 (readyCC (2 ^ 34 + 4) true)) =
      some [[(0, 2 ^ 34 + 4)]] ∧
    ¬ (∃ cc1 ws, CreateWorkersWith (okEnv 4 1) 1 (readyCC (2 ^ 34 + 4) true) = some (cc1, 0) ∧
        cc1.mWorkers = (readyCC (2 ^ 34 + 4) true).mWorkers ++ ws ∧ ws.length = 1 ∧
        ∀ j ∈ allJobs ws,
          0 ≤ j.info.offset ∧ 0 < j.info.size ∧ j.info.size ≤ (okEnv 4 1).ChunkSize) := by
  refine ⟨by decide, ?_⟩
  rintro ⟨cc1, ws, h1, h2, -, h3⟩
  have hw : (CreateWorkersWith (okEnv 4 1) 1 (readyCC (2 ^ 34 + 4) true)).map
      (fun r => r.1.mWorkers) =
      some [⟨[⟨0, ⟨3, 0, 0, 2 ^ 34 + 4⟩⟩]⟩] := by decide
  rw [h1] at hw
  simp only [Option.map_some', Option.some.injEq, h2, readyCC, List.nil_append] at hw
  subst hw
  have hj := h3 ⟨0, ⟨3, 0, 0, 2 ^ 34 + 4⟩⟩ (by simp [allJobs])
  exact absurd hj.2.2 (by decide)

/-- C6, amended: for every file size F, worker count W >= 1 and ChunkSize >= 1
such that the range of every worker has fewer than 2^32 chunks, when the
protocol is HTTP and every Init and Start succeeds, every job created by
CreateWorkers has a non-negative offset and a size that is positive and at
most ChunkSize. -/
theorem CreateWorkers_job_bounds (env : Env) (cc : ControlCenter) (W : Nat)
    (hW : 1 ≤ W) (hCS : 1 ≤ env.ChunkSize) (hfit : NoWrap cc.mFileSize W env.ChunkSize)
    (hproto : cc.mProtoType = HTTP)
    (hok : ∀ i, i < W → env.dlInit i = 0 ∧ env.wkStart i = 0) :
    ∃ cc1 ws, CreateWorkersWith env W cc = some (cc1, 0) ∧
      cc1.mWorkers = cc.mWorkers ++ ws ∧ ws.length = W ∧
      ∀ j ∈ allJobs ws,
        0 ≤ j.info.offset ∧ 0 < j.info.size ∧ j.info.size ≤ env.ChunkSize := by
  refine ⟨_, _, CreateWorkersWith_ok env cc W hproto hok, rfl,
    length_builtWorkers env cc W _, ?_⟩
  intro j hj
  have hpos := (allJobs_tiles env cc W _ hW hCS hfit).bounds j hj
  obtain ⟨k, hkW, hk⟩ := mem_allJobs_builtWorkers env cc W _ j hj
  exact ⟨hpos.1, hpos.2.1, buildJobQ_size_le _ _ _ _ _ hCS (hfit k hkW) j hk⟩

theorem CreateWorkers_job_bounds_witness :
    (1 ≤ 3 ∧ 1 ≤ (okEnv 4 1).ChunkSize ∧
      NoWrap (readyCC 23 true).mFileSize 3 (okEnv 4 1).ChunkSize ∧
      (readyCC 23 true).mProtoType = HTTP ∧
      ∀ i, i < 3 → (okEnv 4 1).dlInit i = 0 ∧ (okEnv 4 1).wkStart i = 0) ∧
    ∃ cc1 ws, CreateWorkersWith (okEnv 4 1) 3 (readyCC 23 true) = some (cc1, 0) ∧
      cc1.mWorkers = (readyCC 23 true).mWorkers ++ ws ∧ ws.length = 3 ∧
      ∀ j ∈ allJobs ws,
        0 ≤ j.info.offset ∧ 0 < j.info.size ∧ j.info.size ≤ (okEnv 4 1).ChunkSize :=
  ⟨⟨by decide, by decide, by decide, rfl, fun _ _ => ⟨rfl, rfl⟩⟩,
    CreateWorkers_job_bounds (okEnv 4 1) (readyCC 23 true) 3 (by decide) (by decide)
      (by decide) rfl (fun _ _ => ⟨rfl, rfl⟩)⟩

/-- C7 as stated fails for F = 2^34 + 4, ChunkSize = 4, W = 1: the range of
worker 0 has 2^32 + 1 chunks, the `uint32_t chunkCount` holds 1, and the queue
is the single job with offset 0 and 2^34 + 4 bytes, not the back-to-back jobs
of ChunkSize bytes. -/
theorem queue_not_chunked :
    queueSpans (CreateWorkersWith (okEnv 4 1) 1 (readyCC (2 ^ 34 + 4) true)) =
      some [[(0, 2 ^ 34 + 4)]] ∧
    ¬ (∃ cc1 ws, CreateWorkersWith (okEnv 4 1) 1 (readyCC (2 ^ 34 + 4) true) = some (cc1, 0) ∧
        cc1.mWorkers = (readyCC (2 ^ 34 + 4) true).mWorkers ++ ws ∧ ws.length = 1 ∧
        ∀ i, i < 1 → ∃ w, ws[i]? = some w ∧
          IsSpecQueue (okEnv 4 1).ChunkSize
            ((i * ((readyCC (2 ^ 34 + 4) true).mFileSize / 1) : Nat) : Int)
            (if i < 1 - 1 then (readyCC (2 ^ 34 + 4) true).mFileSize / 1
              else (readyCC (2 ^ 34 + 4) true).mFileSize -
                (readyCC (2 ^ 34 + 4) true).mFileSize / 1 * (1 - 1))
            w.jobs) := by
  refine ⟨by decide, ?_⟩
  rintro ⟨cc1, ws, h1, h2, -, h3⟩
  have hw : (CreateWorkersWith (okEnv 4 1) 1 (readyCC (2 ^ 34 + 4) true)).map
      (fun r => r.1.mWorkers) =
      some [⟨[⟨0, ⟨3, 0, 0, 2 ^ 34 + 4⟩⟩]⟩] := by decide
  rw [h1] at hw
  simp only [Option.map_some', Option.some.injEq, h2, readyCC, List.nil_append] at hw
  subst hw
  obtain ⟨w, hw1, -, -, hlen, -⟩ := h3 0 (by decide)
  simp only [List.getElem?_cons_zero, Option.some.injEq] at hw1
  subst hw1
  exact absurd hlen (by decide)

/-- C7, amended: for every file size F, worker count W and ChunkSize >= 1 such
that the range of every worker has fewer than 2^32 chunks, when the protocol is
HTTP and every Init and Start succeeds, CreateWorkers appends W workers, and
the queue of worker i is the queue of the specification for the range that
starts at i * floor(F/W) and has floor(F/W) bytes for i < W-1 and
F - floor(F/W) * (W-1) bytes for i = W-1: back-to-back jobs at offsets
start + j * ChunkSize, each of ChunkSize bytes except the last, which takes the
remainder, tiling exactly that range in increasing offset order. -/
theorem CreateWorkers_worker_queue (env : Env) (cc : ControlCenter) (W : Nat)
    (hCS : 1 ≤ env.ChunkSize) (hfit : NoWrap cc.mFileSize W env.ChunkSize)
    (hproto : cc.mProtoType = HTTP)
    (hok : ∀ i, i < W → env.dlInit i = 0 ∧ env.wkStart i = 0) :
    ∃ cc1 ws, CreateWorkersWith env W cc = some (cc1, 0) ∧
      cc1.mWorkers = cc.mWorkers ++ ws ∧ ws.length = W ∧
      ∀ i, i < W → ∃ w, ws[i]? = some w ∧
        IsSpecQueue env.ChunkSize ((i * (cc.mFileSize / W) : Nat) : Int)
          (if i < W - 1 then cc.mFileSize / W
            else cc.mFileSize - cc.mFileSize / W * (W - 1))
          w.jobs := by
  refine ⟨_, _, CreateWorkersWith_ok env cc W hproto hok, rfl,
    length_builtWorkers env cc W _, ?_⟩
  intro i hi
  exact ⟨_, getElem?_builtWorkers env cc W _ i hi,
    buildJobQ_isSpecQueue env.ChunkSize cc.mFD _ _ _ hCS (hfit i hi)⟩

theorem CreateWorkers_worker_queue_witness :
    (1 ≤ (okEnv 4 1).ChunkSize ∧
      NoWrap (readyCC 10 true).mFileSize 2 (okEnv 4 1).ChunkSize ∧
      (readyCC 10 true).mProtoType = HTTP ∧
      ∀ i, i < 2 → (okEnv 4 1).dlInit i = 0 ∧ (okEnv 4 1).wkStart i = 0) ∧
    (∃ cc1 ws, CreateWorkersWith (okEnv 4 1) 2 (readyCC 10 true) = some (cc1, 0) ∧
      cc1.mWorkers = (readyCC 10 true).mWorkers ++ ws ∧ ws.length = 2 ∧
      ∀ i, i < 2 → ∃ w, ws[i]? = some w ∧
        IsSpecQueue (okEnv 4 1).ChunkSize
          ((i * ((readyCC 10 true).mFileSize / 2) : Nat) : Int)
          (if i < 2 - 1 then (readyCC 10 true).mFileSize / 2
            else (readyCC 10 true).mFileSize - (readyCC 10 true).mFileSize / 2 * (2 - 1))
          w.jobs) ∧
    queueSpans (CreateWorkersWith (okEnv 4 1) 2 (readyCC 10 true)) =
      some [[(0, 4), (4, 1)], [(5, 4), (9, 1)]] :=
  ⟨⟨by decide, by decide, rfl, fun _ _ => ⟨rfl, rfl⟩⟩,
    CreateWorkers_worker_queue (okEnv 4 1) (readyCC 10 true) 2 (by decide) (by decide) rfl
      (fun _ _ => ⟨rfl, rfl⟩),
    by decide⟩

/-! ## The worker count -/

theorem GetWorkerCount_noRange (env : Env) (cc : ControlCenter)
    (hr : cc.mServerSupportRange = false) : GetWorkerCount env cc = 1 := by
  simp [GetWorkerCount, hr]

theorem GetWorkerCount_ne_zero (env : Env) (cc : ControlCenter) (hn : 1 ≤ env.nprocs) :
    0 < GetWorkerCount env cc := by
  unfold GetWorkerCount
  split
  · simp only
    split
    · exact Nat.succ_pos _
    · omega
  · exact Nat.one_pos

/-- C10: for every file size, either value of the range-support flag and every
processing-unit count n >= 1, GetWorkerCount returns a positive number, which is
the workerCount that CreateWorkers divides by. -/
theorem GetWorkerCount_pos (env : Env) (cc : ControlCenter) (hn : 1 ≤ env.nprocs) :
    0 < GetWorkerCount env cc ∧
      CreateWorkers env cc = CreateWorkersWith env (GetWorkerCount env cc) cc := by
  exact ⟨GetWorkerCount_ne_zero env cc hn, rfl⟩

theorem GetWorkerCount_pos_witness :
    1 ≤ (okEnv 4 1).nprocs ∧
    (0 < GetWorkerCount (okEnv 4 1) (readyCC 0 true) ∧
      CreateWorkers (okEnv 4 1) (readyCC 0 true) =
        CreateWorkersWith (okEnv 4 1) (GetWorkerCount (okEnv 4 1) (readyCC 0 true))
          (readyCC 0 true)) :=
  ⟨by decide, GetWorkerCount_pos (okEnv 4 1) (readyCC 0 true) (by decide)⟩

/-- C5 as stated fails for F = 8, ChunkSize = 4, n = 2: the count is 3 and the
file has 2 chunks. -/
theorem GetWorkerCount_clamp_exceeds_chunks :
    (readyCC 8 true).mFileSize < (okEnv 4 2).nprocs * 2 * (okEnv 4 2).ChunkSize ∧
    ¬ (GetWorkerCount (okEnv 4 2) (readyCC 8 true) = 8 / 4 + 1 ∧
        GetWorkerCount (okEnv 4 2) (readyCC 8 true) ≤ ceilDiv 8 4) := by
  decide

/-- C5, amended: when the server supports ranges and F < n * 2 * ChunkSize,
GetWorkerCount returns F / ChunkSize + 1; this count exceeds neither the
provisional count 2n nor ceil(F / ChunkSize) + 1, and it is at most
ceil(F / ChunkSize) exactly when ChunkSize does not divide F. -/
theorem GetWorkerCount_clamp (env : Env) (cc : ControlCenter)
    (hr : cc.mServerSupportRange = true)
    (hlt : cc.mFileSize < env.nprocs * 2 * env.ChunkSize) :
    GetWorkerCount env cc = cc.mFileSize / env.ChunkSize + 1 ∧
    GetWorkerCount env cc ≤ env.nprocs * 2 ∧
    GetWorkerCount env cc ≤ ceilDiv cc.mFileSize env.ChunkSize + 1 ∧
    (GetWorkerCount env cc ≤ ceilDiv cc.mFileSize env.ChunkSize ↔
      cc.mFileSize % env.ChunkSize ≠ 0) := by
  have hCS : 1 ≤ env.ChunkSize := by
    rcases Nat.eq_zero_or_pos env.ChunkSize with h | h
    · rw [h] at hlt; simp at hlt
    · exact h
  have hc := exactChunkCount_eq_ceilDiv env.ChunkSize cc.mFileSize hCS
  have hq : cc.mFileSize / env.ChunkSize < env.nprocs * 2 :=
    Nat.div_lt_of_lt_mul (by rw [Nat.mul_comm]; exact hlt)
  have hv : GetWorkerCount env cc = cc.mFileSize / env.ChunkSize + 1 := by
    simp [GetWorkerCount, hr, hlt]
  rw [hv, ← hc]
  unfold exactChunkCount
  refine ⟨rfl, by omega, ?_, ?_⟩
  · split <;> omega
  · split
    · rename_i h0
      simp [h0]
    · rename_i h0
      simp [h0]

theorem GetWorkerCount_clamp_witness :
    ((readyCC 8 true).mServerSupportRange = true ∧
      (readyCC 8 true).mFileSize < (okEnv 4 2).nprocs * 2 * (okEnv 4 2).ChunkSize) ∧
    (GetWorkerCount (okEnv 4 2) (readyCC 8 true) =
        (readyCC 8 true).mFileSize / (okEnv 4 2).ChunkSize + 1 ∧
      GetWorkerCount (okEnv 4 2) (readyCC 8 true) ≤ (okEnv 4 2).nprocs * 2 ∧
      GetWorkerCount (okEnv 4 2) (readyCC 8 true) ≤
        ceilDiv (readyCC 8 true).mFileSize (okEnv 4 2).ChunkSize + 1 ∧
      (GetWorkerCount (okEnv 4 2) (readyCC 8 true) ≤
          ceilDiv (readyCC 8 true).mFileSize (okEnv 4 2).ChunkSize ↔
        (readyCC 8 true).mFileSize % (okEnv 4 2).ChunkSize ≠ 0)) :=
  ⟨⟨rfl, by decide⟩, GetWorkerCount_clamp (okEnv 4 2) (readyCC 8 true) rfl (by decide)⟩

/-! ## Servers without range support -/

/-- C3 as stated fails for F = 10 and ChunkSize = 4, where the single worker
gets three jobs, not one job spanning the file, and for F = 2^34 and
ChunkSize = 4, where the file has 2^32 chunks, the `uint32_t chunkCount` holds
0 and the single worker gets no job. -/
theorem noRange_queue_not_single :
    ((readyCC 10 false).mServerSupportRange = false ∧
      ¬ (GetWorkerCount (okEnv 4 1) (readyCC 10 false) = 1 ∧
          ∃ cc1 w, CreateWorkers (okEnv 4 1) (readyCC 10 false) = some (cc1, 0) ∧
            cc1.mWorkers = (readyCC 10 false).mWorkers ++ [w] ∧
            w.jobs.map Job.span = [(0, (readyCC 10 false).mFileSize)])) ∧
    ((readyCC (2 ^ 34) false).mServerSupportRange = false ∧
      ¬ (GetWorkerCount (okEnv 4 1) (readyCC (2 ^ 34) false) = 1 ∧
          ∃ cc1 w, CreateWorkers (okEnv 4 1) (readyCC (2 ^ 34) false) = some (cc1, 0) ∧
            cc1.mWorkers = (readyCC (2 ^ 34) false).mWorkers ++ [w] ∧
            w.jobs.map Job.span = [(0, (readyCC (2 ^ 34) false).mFileSize)])) := by
  refine ⟨⟨rfl, ?_⟩, ⟨rfl, ?_⟩⟩
  · rintro ⟨-, cc1, w, h1, h2, h3⟩
    have hq : queueSpans (CreateWorkers (okEnv 4 1) (readyCC 10 false)) =
        some [[(0, 4), (4, 4), (8, 2)]] := by decide
    rw [h1] at hq
    simp only [queueSpans, Option.map_some', h2, readyCC, List.nil_append, List.map_cons,
      List.map_nil, h3, Option.some.injEq] at hq
    exact absurd hq (by decide)
  · rintro ⟨-, cc1, w, h1, h2, h3⟩
    have hq : queueSpans (CreateWorkers (okEnv 4 1) (readyCC (2 ^ 34) false)) =
        some [[]] := by decide
    rw [h1] at hq
    simp only [queueSpans, Option.map_some', h2, readyCC, List.nil_append, List.map_cons,
      List.map_nil, h3, Option.some.injEq] at hq
    exact absurd hq (by decide)

theorem specQueue_single_iff (CS F : Nat) :
    specQueue CS 0 F = [(0, F)] ↔ 0 < F ∧ F ≤ CS := by
  unfold specQueue
  cases F with
  | zero => simp [specQueueAux]
  | succ n =>
    unfold specQueueAux
    rw [if_neg (Nat.succ_ne_zero n)]
    by_cases h : n + 1 ≤ CS
    · rw [if_pos h]
      simp [h]
    · rw [if_neg h]
      constructor
      · intro he
        have h1 := (List.cons.inj he).1
        have h2 : CS = n + 1 := (Prod.mk.inj h1).2
        omega
      · intro he
        omega

/-- C3, amended: when the server does not support range requests, for every
file size F and ChunkSize >= 1 such that the file has fewer than 2^32 chunks
(protocol HTTP, Init and Start of worker 0 succeed), GetWorkerCount returns 1
and CreateWorkers builds exactly one worker; its queue is the queue of the
specification for the range [0, F), that is ceil(F / ChunkSize) jobs of at most
ChunkSize bytes tiling [0, F), and it is the single job with offset 0 and
size F exactly when 0 < F <= ChunkSize. -/
theorem noRange_one_worker (env : Env) (cc : ControlCenter)
    (hr : cc.mServerSupportRange = false) (hCS : 1 ≤ env.ChunkSize)
    (hfit : ceilDiv cc.mFileSize env.ChunkSize < 2 ^ 32)
    (hproto : cc.mProtoType = HTTP) (hok : env.dlInit 0 = 0 ∧ env.wkStart 0 = 0) :
    GetWorkerCount env cc = 1 ∧
    ∃ cc1 w, CreateWorkers env cc = some (cc1, 0) ∧
      cc1.mWorkers = cc.mWorkers ++ [w] ∧
      IsSpecQueue env.ChunkSize 0 cc.mFileSize w.jobs ∧
      (w.jobs.map Job.span = [(0, cc.mFileSize)] ↔
        0 < cc.mFileSize ∧ cc.mFileSize ≤ env.ChunkSize) := by
  have hW := GetWorkerCount_noRange env cc hr
  have hrun := CreateWorkersWith_ok env cc 1 hproto
    (fun i hi => by have : i = 0 := by omega
                    subst this; exact hok)
  have e1 : beginOffset cc.mFileSize 1 0 = 0 := by simp [beginOffset]
  have e2 : rangeSize cc.mFileSize 1 0 = cc.mFileSize := by simp [rangeSize]
  have hq := buildJobQ_isSpecQueue env.ChunkSize cc.mFD (cc.mDownLoaders.length + 0)
    (beginOffset cc.mFileSize 1 0) (rangeSize cc.mFileSize 1 0) hCS (by rw [e2]; exact hfit)
  rw [e1, e2] at hq
  have hrun1 : CreateWorkers env cc = CreateWorkersWith env 1 cc := by
    unfold CreateWorkers
    rw [hW]
  rw [hrun] at hrun1
  refine ⟨hW, _, builtWorker env cc 1 cc.mDownLoaders.length 0, hrun1, ?_, ?_, ?_⟩
  · simp [List.range'_succ]
  · simpa [builtWorker, e1, e2] using hq
  · simp only [builtWorker, e1, e2]
    rw [hq.1]
    exact specQueue_single_iff env.ChunkSize cc.mFileSize

theorem noRange_one_worker_witness :
    ((readyCC 3 false).mServerSupportRange = false ∧ 1 ≤ (okEnv 4 1).ChunkSize ∧
      ceilDiv (readyCC 3 false).mFileSize (okEnv 4 1).ChunkSize < 2 ^ 32 ∧
      (readyCC 3 false).mProtoType = HTTP ∧
      ((okEnv 4 1).dlInit 0 = 0 ∧ (okEnv 4 1).wkStart 0 = 0)) ∧
    (GetWorkerCount (okEnv 4 1) (readyCC 3 false) = 1 ∧
      ∃ cc1 w, CreateWorkers (okEnv 4 1) (readyCC 3 false) = some (cc1, 0) ∧
        cc1.mWorkers = (readyCC 3 false).mWorkers ++ [w] ∧
        IsSpecQueue (okEnv 4 1).ChunkSize 0 (readyCC 3 false).mFileSize w.jobs ∧
        (w.jobs.map Job.span = [(0, (readyCC 3 false).mFileSize)] ↔
          0 < (readyCC 3 false).mFileSize ∧
            (readyCC 3 false).mFileSize ≤ (okEnv 4 1).ChunkSize)) :=
  ⟨⟨rfl, by decide, by decide, rfl, rfl, rfl⟩,
    noRange_one_worker (okEnv 4 1) (readyCC 3 false) rfl (by decide) (by decide) rfl
      ⟨rfl, rfl⟩⟩

/-! ## No worker without work -/

/-- C4 as stated fails on three inputs with range support and n = 1.  For the
empty file (F = 0, ChunkSize = 4) the count is 1 and the only worker gets a
range of 0 bytes and an empty queue.  For ChunkSize = 1 and F = 1 the count
is 2 and worker 0 gets a range of 0 bytes and an empty queue.  For F = 2^34 and
ChunkSize = 2 the count is 2, each range has 2^32 chunks, the `uint32_t
chunkCount` holds 0 and both queues are empty. -/
theorem workers_without_work :
    ((readyCC 0 true).mServerSupportRange = true ∧ 1 ≤ (okEnv 4 1).nprocs ∧
      ¬ (∃ cc1 ws, CreateWorkers (okEnv 4 1) (readyCC 0 true) = some (cc1, 0) ∧
          cc1.mWorkers = (readyCC 0 true).mWorkers ++ ws ∧
          ∀ i, i < GetWorkerCount (okEnv 4 1) (readyCC 0 true) →
            ∃ w, ws[i]? = some w ∧
              0 < rangeSize (readyCC 0 true).mFileSize
                (GetWorkerCount (okEnv 4 1) (readyCC 0 true)) i ∧
              w.jobs ≠ [])) ∧
    ((readyCC 1 true).mServerSupportRange = true ∧ 1 ≤ (okEnv 1 1).nprocs ∧
      ¬ (∃ cc1 ws, CreateWorkers (okEnv 1 1) (readyCC 1 true) = some (cc1, 0) ∧
          cc1.mWorkers = (readyCC 1 true).mWorkers ++ ws ∧
          ∀ i, i < GetWorkerCount (okEnv 1 1) (readyCC 1 true) →
            ∃ w, ws[i]? = some w ∧
              0 < rangeSize (readyCC 1 true).mFileSize
                (GetWorkerCount (okEnv 1 1) (readyCC 1 true)) i ∧
              w.jobs ≠ [])) ∧
    ((readyCC (2 ^ 34) true).mServerSupportRange = true ∧ 1 ≤ (okEnv 2 1).nprocs ∧
      queueSpans (CreateWorkers (okEnv 2 1) (readyCC (2 ^ 34) true)) = some [[], []] ∧
      ¬ (∃ cc1 ws, CreateWorkers (okEnv 2 1) (readyCC (2 ^ 34) true) = some (cc1, 0) ∧
          cc1.mWorkers = (readyCC (2 ^ 34) true).mWorkers ++ ws ∧
          ∀ i, i < GetWorkerCount (okEnv 2 1) (readyCC (2 ^ 34) true) →
            ∃ w, ws[i]? = some w ∧
              0 < rangeSize (readyCC (2 ^ 34) true).mFileSize
                (GetWorkerCount (okEnv 2 1) (readyCC (2 ^ 34) true)) i ∧
              w.jobs ≠ [])) := by
  refine ⟨⟨rfl, by decide, ?_⟩, ⟨rfl, by decide, ?_⟩, ⟨rfl, by decide, by decide, ?_⟩⟩
  · rintro ⟨cc1, ws, -, -, h3⟩
    obtain ⟨w, -, h, -⟩ := h3 0 (by decide)
    exact absurd h (by decide)
  · rintro ⟨cc1, ws, -, -, h3⟩
    obtain ⟨w, -, h, -⟩ := h3 0 (by decide)
    exact absurd h (by decide)
  · rintro ⟨cc1, ws, h1, h2, h3⟩
    have hw : (CreateWorkers (okEnv 2 1) (readyCC (2 ^ 34) true)).map
        (fun r => r.1.mWorkers) = some [⟨[]⟩, ⟨[]⟩] := by decide
    rw [h1] at hw
    simp only [Option.map_some', Option.some.injEq, h2, readyCC, List.nil_append] at hw
    subst hw
    obtain ⟨w, hw1, -, hne⟩ := h3 0 (by decide)
    simp only [List.getElem?_cons_zero, Option.some.injEq] at hw1
    subst hw1
    exact hne rfl

theorem rangeSize_pos (F W i : Nat) (hW : 1 ≤ W) (hWF : W ≤ F) :
    0 < rangeSize F W i := by
  have hq : 0 < F / W := Nat.div_pos hWF (by omega)
  have hle : F / W * W ≤ F := Nat.div_mul_le_self F W
  unfold rangeSize
  generalize F / W = q at hq hle ⊢
  split
  · exact hq
  · have e : W = (W - 1) + 1 := by omega
    rw [e, Nat.mul_succ] at hle
    omega

theorem GetWorkerCount_le_fileSize (env : Env) (cc : ControlCenter)
    (hr : cc.mServerSupportRange = true) (hCS : 2 ≤ env.ChunkSize) (hF : 1 ≤ cc.mFileSize) :
    GetWorkerCount env cc ≤ cc.mFileSize := by
  unfold GetWorkerCount
  rw [if_pos hr]
  dsimp only
  split
  · have h1 : cc.mFileSize / env.ChunkSize ≤ cc.mFileSize / 2 :=
      Nat.div_le_div_left hCS (by decide)
    omega
  · rename_i h
    have h2 : env.nprocs * 2 * 1 ≤ env.nprocs * 2 * env.ChunkSize :=
      Nat.mul_le_mul_left _ (by omega)
    omega

/-- C4, amended: when the server supports ranges, for every file size F >= 1,
every processing-unit count n >= 1 and ChunkSize >= 2 such that, with
W = GetWorkerCount(), the range of every worker has fewer than 2^32 chunks
(protocol HTTP, every Init and Start succeeds), CreateWorkers builds W workers
and every one of them is assigned a byte range of positive size, which its
queue tiles, and hence a non-empty job queue. -/
theorem every_worker_has_work (env : Env) (cc : ControlCenter)
    (hr : cc.mServerSupportRange = true) (hn : 1 ≤ env.nprocs)
    (hCS : 2 ≤ env.ChunkSize) (hF : 1 ≤ cc.mFileSize)
    (hfit : NoWrap cc.mFileSize (GetWorkerCount env cc) env.ChunkSize)
    (hproto : cc.mProtoType = HTTP)
    (hok : ∀ i, i < GetWorkerCount env cc → env.dlInit i = 0 ∧ env.wkStart i = 0) :
    ∃ cc1 ws, CreateWorkers env cc = some (cc1, 0) ∧
      cc1.mWorkers = cc.mWorkers ++ ws ∧ ws.length = GetWorkerCount env cc ∧
      ∀ i, i < GetWorkerCount env cc → ∃ w, ws[i]? = some w ∧
        0 < rangeSize cc.mFileSize (GetWorkerCount env cc) i ∧
        Tiles (beginOffset cc.mFileSize (GetWorkerCount env cc) i)
          (beginOffset cc.mFileSize (GetWorkerCount env cc) i +
            (rangeSize cc.mFileSize (GetWorkerCount env cc) i : Int)) w.jobs ∧
        w.jobs ≠ [] := by
  have hW := GetWorkerCount_ne_zero env cc hn
  have hWF := GetWorkerCount_le_fileSize env cc hr hCS hF
  refine ⟨_, _, CreateWorkersWith_ok env cc _ hproto hok, rfl,
    length_builtWorkers env cc _ _, ?_⟩
  intro i hi
  have hpos := rangeSize_pos cc.mFileSize (GetWorkerCount env cc) i hW hWF
  have ht := builtWorker_tiles env cc (GetWorkerCount env cc) cc.mDownLoaders.length i
    (by omega) (hfit i hi)
  exact ⟨_, getElem?_builtWorkers env cc _ _ i hi, hpos, ht, ht.ne_nil (by omega)⟩

theorem every_worker_has_work_witness :
    ((readyCC 10 true).mServerSupportRange = true ∧ 1 ≤ (okEnv 4 1).nprocs ∧
      2 ≤ (okEnv 4 1).ChunkSize ∧ 1 ≤ (readyCC 10 true).mFileSize ∧
      NoWrap (readyCC 10 true).mFileSize (GetWorkerCount (okEnv 4 1) (readyCC 10 true))
        (okEnv 4 1).ChunkSize ∧
      (readyCC 10 true).mProtoType = HTTP ∧
      ∀ i, i < GetWorkerCount (okEnv 4 1) (readyCC 10 true) →
        (okEnv 4 1).dlInit i = 0 ∧ (okEnv 4 1).wkStart i = 0) ∧
    ∃ cc1 ws, CreateWorkers (okEnv 4 1) (readyCC 10 true) = some (cc1, 0) ∧
      cc1.mWorkers = (readyCC 10 true).mWorkers ++ ws ∧
      ws.length = GetWorkerCount (okEnv 4 1) (readyCC 10 true) ∧
      ∀ i, i < GetWorkerCount (okEnv 4 1) (readyCC 10 true) → ∃ w, ws[i]? = some w ∧
        0 < rangeSize (readyCC 10 true).mFileSize
          (GetWorkerCount (okEnv 4 1) (readyCC 10 true)) i ∧
        Tiles (beginOffset (readyCC 10 true).mFileSize
            (GetWorkerCount (okEnv 4 1) (readyCC 10 true)) i)
          (beginOffset (readyCC 10 true).mFileSize
              (GetWorkerCount (okEnv 4 1) (readyCC 10 true)) i +
            (rangeSize (readyCC 10 true).mFileSize
              (GetWorkerCount (okEnv 4 1) (readyCC 10 true)) i : Int)) w.jobs ∧
        w.jobs ≠ [] :=
  ⟨⟨rfl, by decide, by decide, by decide, by decide, rfl, fun _ _ => ⟨rfl, rfl⟩⟩,
    every_worker_has_work (okEnv 4 1) (readyCC 10 true) rfl (by decide) (by decide)
      (by decide) (by decide) rfl (fun _ _ => ⟨rfl, rfl⟩)⟩

/-! ## Init: the name of the output file -/

theorem find_last_of_none {c : Char} {s : Str} (h : find_last_of c s = none) : c ∉ s := by
  induction s with
  | nil => simp
  | cons x xs ih =>
    unfold find_last_of at h
    cases hx : find_last_of c xs with
    | some p => rw [hx] at h; cases h
    | none =>
      rw [hx] at h
      by_cases hxc : x = c
      · simp [hxc] at h
      · intro hm
        rcases List.mem_cons.1 hm with h1 | h1
        · exact hxc h1.symm
        · exact ih hx h1

theorem find_last_of_some {c : Char} {s : Str} {p : Nat} (h : find_last_of c s = some p) :
    ∃ pre, s = pre ++ c :: substr s (p + 1) ∧ pre.length = p ∧ c ∉ substr s (p + 1) := by
  induction s generalizing p with
  | nil => cases h
  | cons x xs ih =>
    unfold find_last_of at h
    cases hx : find_last_of c xs with
    | some q =>
      rw [hx] at h
      have hp : q + 1 = p := Option.some.inj h
      subst hp
      obtain ⟨pre, h1, h2, h3⟩ := ih hx
      refine ⟨x :: pre, ?_, by simp [h2], ?_⟩
      · simp only [substr, List.drop_succ_cons, List.cons_append] at h1 ⊢
        rw [← h1]
      · simpa [substr] using h3
    | none =>
      rw [hx] at h
      by_cases hxc : x = c
      · rw [if_pos hxc] at h
        have hp : 0 = p := Option.some.inj h
        subst hp
        subst hxc
        exact ⟨[], by simp [substr], rfl, by simpa [substr] using find_last_of_none hx⟩
      · rw [if_neg hxc] at h
        cases h

theorem GetFileSize_mFileName (ec : ErrorCodes) (p : ProbeEnv) (cc : ControlCenter) :
    (GetFileSize ec p cc).1.mFileName = cc.mFileName := by
  unfold GetFileSize
  split
  · rfl
  · split
    · dsimp only
      split <;> rfl
    · rfl

theorem Init_mFileName (ec : ErrorCodes) (e : InitEnv) (cc : ControlCenter)
    (url protoType fileName : Str) :
    (Init ec e cc url protoType fileName).1.mFileName =
      match find_last_of '/' fileName with
      | some pos => substr fileName (pos + 1)
      | none => fileName := by
  unfold Init
  dsimp only
  split
  · cases find_last_of '/' fileName <;> rfl
  · split
    · rw [GetFileSize_mFileName]
      cases find_last_of '/' fileName <;> rfl
    · split <;>
      · dsimp only
        rw [GetFileSize_mFileName]
        cases find_last_of '/' fileName <;> rfl

/-- C9: for every fileName argument (and whatever the probe and the file
system answer), Init leaves in mFileName the final path segment of the
argument: the text after the last slash when the argument contains a slash, the
argument itself when it contains none; the name contains no slash and is a
suffix of the argument. -/
theorem Init_fileName_is_last_segment (ec : ErrorCodes) (e : InitEnv) (cc : ControlCenter)
    (url protoType fileName : Str) :
    ('/' ∈ fileName →
      ∃ pre, fileName = pre ++ '/' :: (Init ec e cc url protoType fileName).1.mFileName) ∧
    ('/' ∉ fileName → (Init ec e cc url protoType fileName).1.mFileName = fileName) ∧
    '/' ∉ (Init ec e cc url protoType fileName).1.mFileName ∧
    List.IsSuffix (Init ec e cc url protoType fileName).1.mFileName fileName := by
  rw [Init_mFileName]
  cases h : find_last_of '/' fileName with
  | none =>
    have hn := find_last_of_none h
    exact ⟨fun hm => absurd hm hn, fun _ => rfl, hn, List.suffix_refl _⟩
  | some p =>
    obtain ⟨pre, h1, -, h3⟩ := find_last_of_some h
    refine ⟨fun _ => ⟨pre, h1⟩, fun hn => ?_, h3, List.drop_suffix _ _⟩
    exfalso
    apply hn
    rw [h1]
    simp

theorem Init_fileName_is_last_segment_witness :
    ('/' ∈ "out/dir/file.bin".toList →
      ∃ pre, "out/dir/file.bin".toList = pre ++ '/' ::
        (Init sampleCodes ⟨true, unknownLengthProbe [] Int.toNat, 3, 0⟩ (readyCC 0 false)
          [] HTTP "out/dir/file.bin".toList).1.mFileName) ∧
    ('/' ∉ "out/dir/file.bin".toList →
      (Init sampleCodes ⟨true, unknownLengthProbe [] Int.toNat, 3, 0⟩ (readyCC 0 false)
        [] HTTP "out/dir/file.bin".toList).1.mFileName = "out/dir/file.bin".toList) ∧
    '/' ∉ (Init sampleCodes ⟨true, unknownLengthProbe [] Int.toNat, 3, 0⟩ (readyCC 0 false)
      [] HTTP "out/dir/file.bin".toList).1.mFileName ∧
    List.IsSuffix
      (Init sampleCodes ⟨true, unknownLengthProbe [] Int.toNat, 3, 0⟩ (readyCC 0 false)
        [] HTTP "out/dir/file.bin".toList).1.mFileName
      "out/dir/file.bin".toList :=
  Init_fileName_is_last_segment sampleCodes ⟨true, unknownLengthProbe [] Int.toNat, 3, 0⟩
    (readyCC 0 false) [] HTTP "out/dir/file.bin".toList

/-! ## GetFileSize: the error paths -/

/-- The probe fails with a non-zero code when the handle cannot be created,
when the transfer fails and when the content length cannot be queried. -/
theorem GetFileSize_error_paths (ec : ErrorCodes) (p : ProbeEnv) (cc : ControlCenter)
    (h1 : ec.E_CURL_EASY_INIT ≠ 0) (h2 : ec.E_CURL_GET_FILE_SIZE ≠ 0)
    (hp : p.handleNull = true ∨ p.performOK = false ∨ p.getinfoOK = false) :
    (GetFileSize ec p cc).2 ≠ 0 := by
  unfold GetFileSize
  cases hn : p.handleNull
  · cases hf : p.performOK
    · simpa using h2
    · cases hg : p.getinfoOK
      · simpa using h2
      · simp [hn, hf, hg] at hp
  · simpa using h1

/-- C8 at the failing input: the probe completes, the content-length query
succeeds and reports -1 (unknown length); GetFileSize returns 0 all the same,
having stored the converted -1 in mFileSize, and Init, when the file opens,
returns 0 too. -/
theorem GetFileSize_unknown_length_returns_zero (ec : ErrorCodes) (header : Str)
    (toFileSize : Int → Nat) (cc : ControlCenter) (url protoType fileName : Str) :
    (GetFileSize ec (unknownLengthProbe header toFileSize) cc).2 = 0 ∧
    (GetFileSize ec (unknownLengthProbe header toFileSize) cc).1.mFileSize = toFileSize (-1) ∧
    (Init ec ⟨true, unknownLengthProbe header toFileSize, 3, 0⟩ cc url protoType fileName).2
      = 0 := by
  have h1 : ∀ c, (GetFileSize ec (unknownLengthProbe header toFileSize) c).2 = 0 := by
    intro c
    simp [GetFileSize, unknownLengthProbe]
  refine ⟨h1 cc, ?_, ?_⟩
  · simp only [GetFileSize, unknownLengthProbe, Bool.false_eq_true, if_false, if_true]
    split <;> rfl
  · unfold Init
    simp [h1]

/-! ## StartWork: the failure path -/

/-- When `CreateWorkers` returns an error, `StartWork` returns at once with the
state `CreateWorkers` left: nothing is waited on and nothing is closed. -/
theorem StartWork_of_CreateWorkers_error (env : Env) (cc cc1 : ControlCenter) (err : Int)
    (h : CreateWorkers env cc = some (cc1, err)) (he : err ≠ 0) :
    StartWork env cc = some (cc1, err) := by
  simp [StartWork, h, he]

/-- C2 at the failing input (F = 10, ChunkSize = 4, two workers, Init of the
downloader of worker 1 returns 7): StartWork returns 7 after worker 0 has been
started, without waiting on it and without closing the descriptor, and leaves
both workers in mWorkers; on the success path the same input ends with both
workers waited on and the descriptor closed. -/
theorem StartWork_failure_skips_WaitStop :
    (StartWork (initFailsAt1 4 1) (readyCC 10 true)).map
        (fun r => (r.2, r.1.log, r.1.mWorkers.length)) =
      some (7, [Event.start 0], 2) ∧
    (StartWork (okEnv 4 1) (readyCC 10 true)).map
        (fun r => (r.2, r.1.log, r.1.mWorkers.length)) =
      some (0, [Event.start 0, Event.start 1, Event.waitStop 0, Event.waitStop 1,
        Event.close 3], 0) := by
  constructor <;> decide

/-! ## Machine integers -/

/-- For every processor count that fits an `int`, the `uint32_t` variable
`count` of `GetWorkerCount` holds the exact value. -/
theorem GetWorkerCount32_eq (env : Env) (cc : ControlCenter) (hn : env.nprocs < 2 ^ 31) :
    GetWorkerCount32 env cc = GetWorkerCount env cc := by
  have h2 : env.nprocs * 2 < 2 ^ 32 := by omega
  unfold GetWorkerCount32 GetWorkerCount
  rw [u32_of_lt h2, u32_of_lt (by decide : 1 < 2 ^ 32)]
  split
  · dsimp only
    split
    · rename_i hlt
      have hq : cc.mFileSize / env.ChunkSize < env.nprocs * 2 :=
        Nat.div_lt_of_lt_mul (by rw [Nat.mul_comm]; exact hlt)
      exact u32_of_lt (by omega)
    · rfl
  · rfl

/-- No range is larger than the file. -/
theorem rangeSize_le (F W i : Nat) : rangeSize F W i ≤ F := by
  unfold rangeSize
  split
  · exact Nat.div_le_self F W
  · exact Nat.sub_le _ _

/-- No chunk count wraps when F / ChunkSize + 1 < 2^32, whatever the number of
workers. -/
theorem NoWrap_of_fileSize (F W CS : Nat) (hCS : 1 ≤ CS) (h : F / CS + 1 < 2 ^ 32) :
    NoWrap F W CS := by
  intro i _
  have h2 : rangeSize F W i / CS ≤ F / CS := Nat.div_le_div_right (rangeSize_le F W i)
  rw [← exactChunkCount_eq_ceilDiv CS _ hCS]
  unfold exactChunkCount
  split <;> omega

/-- The chunk count does wrap beyond that: a range of 2^34 bytes has 2^32 chunks
of 4 bytes and `chunkCount` holds 0. -/
theorem chunkCount_wraps : exactChunkCount 4 (2 ^ 34) = 2 ^ 32 ∧ chunkCount 4 (2 ^ 34) = 0 := by
  decide

end FileDownloader
